import Mathlib

/-!
Shallow embedding of `cleaner/clean-wiki.py` (the wiki-dump cleaner).

Strings of the Python program are modelled as Lean `String` where they are
only compared for equality (tag names, attribute keys), and as `List Char`
where the program slices or rewrites them (URLs, filenames).  HTML nodes
(BeautifulSoup `NavigableString` / `Tag`) are modelled by the inductive
`Node`.  File IO is modelled by passing the decode results in as parameters
and returning the would-be write as a value.
-/

/-- A node of the parsed HTML tree: either a text node (`NavigableString`,
an `str` in Python) or an element with a tag name, attributes and children. -/
inductive Node where
  | text (s : String)
  | elem (name : String) (attrs : List (String × String)) (children : List Node)

/-- Embedding of `make_printable`: the character-by-character loop that keeps
CR and LF, and otherwise keeps a character iff its code point is neither 0x7F
nor below 0x20. -/
def make_printable : List Char → List Char
  | [] => []
  | ch :: rest =>
    if ch = '\r' ∨ ch = '\n' then ch :: make_printable rest
    else if ch.toNat ≠ 0x7F ∧ ch.toNat ≥ 0x20 then ch :: make_printable rest
    else make_printable rest

/-- The predicate, read off the implementation's loop, deciding whether
`make_printable` keeps a character. -/
def implKeep (ch : Char) : Bool :=
  decide ((ch = '\r' ∨ ch = '\n') ∨ (ch.toNat ≠ 0x7F ∧ ch.toNat ≥ 0x20))

/-- Modelled from the spec's words (for comparison with the implementation):
keep exactly the characters that are not (below 0x20 and different from CR
and LF) and not equal to 0x7F. -/
def specKeep (ch : Char) : Bool :=
  decide (¬ ((ch.toNat < 0x20 ∧ ch ≠ '\r' ∧ ch ≠ '\n') ∨ ch.toNat = 0x7F))

/-- UTF-8 encoding of a single character's code point, as Python's
`str.encode('utf-8')` produces for it. -/
def utf8Encode (c : Char) : List Nat :=
  let n := c.toNat
  if n < 0x80 then [n]
  else if n < 0x800 then [0xC0 + n / 64, 0x80 + n % 64]
  else if n < 0x10000 then [0xE0 + n / 4096, 0x80 + (n / 64) % 64, 0x80 + n % 64]
  else [0xF0 + n / 262144, 0x80 + (n / 4096) % 64, 0x80 + (n / 64) % 64, 0x80 + n % 64]

/-- A byte that `urllib.parse.quote` leaves unescaped with the default
`safe='/'`: ASCII letters, digits, `_`, `.`, `-`, `~` and `/`. -/
def quoteSafeByte (b : Nat) : Bool :=
  (0x41 ≤ b && b ≤ 0x5A) || (0x61 ≤ b && b ≤ 0x7A) || (0x30 ≤ b && b ≤ 0x39) ||
  b == 0x5F || b == 0x2E || b == 0x2D || b == 0x7E || b == 0x2F

/-- Upper-case hexadecimal digit, as used in percent-escapes. -/
def hexDigit (n : Nat) : Char :=
  if n < 10 then Char.ofNat (0x30 + n) else Char.ofNat (0x41 + (n - 10))

/-- Embedding of `urllib.parse.quote` with its default arguments: UTF-8
encode, keep safe bytes, percent-escape the rest with upper-case hex. -/
def quote (s : List Char) : List Char :=
  ((s.map utf8Encode).flatten).map
    (fun b => if quoteSafeByte b then [Char.ofNat b] else ['%', hexDigit (b / 16), hexDigit (b % 16)])
  |>.flatten

def fullSearchURL : List Char := "http://c2.com/cgi/fullSearch".data
def logoGifURL : List Char := "http://c2.com/sig/wiki.gif".data
def logoPngURL : List Char := "http://c2.com/wiki.png".data
def wikiCgiURL : List Char := "http://c2.com/cgi/wiki".data
def wikiPercentPre : List Char := "wiki%3F".data
def editPre : List Char := "http://c2.com/cgi/wiki?edit=".data
def quickDiffPre : List Char := "http://c2.com/cgi/quickDiff?".data
def wikiQueryPre : List Char := "http://c2.com/cgi/wiki?".data

/-- Embedding of `map_url`: the ordered first-match chain of URL rewrite
rules.  Python's `url[a:]` is `List.drop a` and `url[7:-5]` is
`(url.drop 7).take (url.length - 12)` (both clamp the same way). -/
def map_url (url page : List Char) : List Char :=
  if url = fullSearchURL then "../fullSearch?search=".data ++ quote page
  else if url = logoGifURL ∨ url = logoPngURL then "../static/wiki.gif".data
  else if url = wikiCgiURL then "../wiki".data
  else if wikiPercentPre.isPrefixOf url then (url.drop 7).take (url.length - 12)
  else if editPre.isPrefixOf url then url.drop 28
  else if quickDiffPre.isPrefixOf url then url.drop 28
  else if wikiQueryPre.isPrefixOf url then url.drop 23
  else if fullSearchURL.isPrefixOf url then "../fullSearch".data ++ url.drop 28
  else url

/-- Does the paragraph-regrouping loop see this node as a `<p>` marker
(`child.name == 'p'`)? -/
def isP : Node → Bool
  | .elem nm _ _ => nm = "p"
  | .text _ => false

/-- Does the paragraph-regrouping loop see this node as an `<hr>`
(`child.name == 'hr'`)? -/
def isHr : Node → Bool
  | .elem nm _ _ => nm = "hr"
  | .text _ => false

/-- A node that is neither a `<p>` nor an `<hr>`: the "loose content" the
regrouping accumulates (text nodes and all other elements). -/
def isLoose (n : Node) : Bool := !(isP n || isHr n)

/-- An empty paragraph element — the "separator marker" shape in the spec's
sense (a `<p>` with no children). -/
def isEmptyP : Node → Bool
  | .elem nm _ cs => nm = "p" && cs.isEmpty
  | .text _ => false

/-- The children of a node (a text node has none). -/
def nodeChildren : Node → List Node
  | .text _ => []
  | .elem _ _ cs => cs

/-- Embedding of the `while len(article.contents) > 0` loop of
`normalize_file`, with `acc` playing `paragraph_contents`.  A text node or
other element is accumulated; a `<p>` with non-empty accumulator receives
the accumulated nodes (`child.extend(...)`) and is emitted, with empty
accumulator it is dropped; an `<hr>` first flushes a synthesized `<p>` if
needed and is then emitted itself; at the end a final flush happens. -/
def regroupAux : List Node → List Node → List Node
  | acc, [] => if acc.isEmpty then [] else [Node.elem "p" [] acc]
  | acc, child :: rest =>
    match child with
    | .text s => regroupAux (acc ++ [Node.text s]) rest
    | .elem nm a cs =>
      if nm = "p" then
        if acc.isEmpty then regroupAux acc rest
        else Node.elem nm a (cs ++ acc) :: regroupAux [] rest
      else if nm = "hr" then
        (if acc.isEmpty then [] else [Node.elem "p" [] acc]) ++
          (Node.elem nm a cs :: regroupAux [] rest)
      else regroupAux (acc ++ [Node.elem nm a cs]) rest

/-- The paragraph regrouping applied to the article container's children,
starting from an empty `paragraph_contents`. -/
def regroup (children : List Node) : List Node := regroupAux [] children

/-- Observer on the regrouping loop: the successive accumulator contents at
the moments the loop flushes them (into a reused `<p>`, before an `<hr>`,
or at the end).  It follows `regroupAux` case for case. -/
def regroupFlushed : List Node → List Node → List (List Node)
  | acc, [] => if acc.isEmpty then [] else [acc]
  | acc, child :: rest =>
    match child with
    | .text s => regroupFlushed (acc ++ [Node.text s]) rest
    | .elem nm a cs =>
      if nm = "p" then
        if acc.isEmpty then regroupFlushed acc rest
        else acc :: regroupFlushed [] rest
      else if nm = "hr" then
        (if acc.isEmpty then [] else [acc]) ++ regroupFlushed [] rest
      else regroupFlushed (acc ++ [Node.elem nm a cs]) rest

/-- Embedding of Python `s.replace(pat, '')`, fuel-indexed to stay
structurally recursive: scan left to right, remove each non-overlapping
occurrence of `pat`, continue after it.  One character is consumed per
step, so `s.length` fuel suffices. -/
def strReplaceGo (pat : List Char) : Nat → List Char → List Char
  | _, [] => []
  | 0, s => s
  | fuel + 1, c :: rest =>
    if pat.isPrefixOf (c :: rest) then
      strReplaceGo pat fuel (List.drop pat.length (c :: rest))
    else
      c :: strReplaceGo pat fuel rest

/-- Python `s.replace(pat, '')` (removal of every occurrence of `pat`). -/
def strReplace (pat s : List Char) : List Char := strReplaceGo pat s.length s

/-- Embedding of `os.path.basename`: the part of the path after its last
`/`. -/
def basename (f : List Char) : List Char :=
  f.foldl (fun acc c => if c = '/' then [] else acc ++ [c]) []

/-- The `page_name` computed by `normalize_file`:
`os.path.basename(filename).replace('wiki?', '').replace('.html', '')`. -/
def pageName (filename : List Char) : List Char :=
  strReplace ".html".data (strReplace "wiki?".data (basename filename))

/-- The destination filename written by `normalize_file`:
`filename.replace('wiki?', '')`. -/
def destFilename (filename : List Char) : List Char :=
  strReplace "wiki?".data filename

/-- The first successful decode attempt, as the
`for encoding in ('utf-8', 'cp1252'): try ... break; except ... pass`
loop computes it. -/
def firstSuccess : List (Option α) → Option α
  | [] => none
  | some x :: _ => some x
  | none :: rest => firstSuccess rest

/-- Is this node a `<script>` element (target of `for script in
doc('script'): script.extract()`)? -/
def isScript : Node → Bool
  | .elem nm _ _ => nm = "script"
  | .text _ => false

mutual
/-- Removal of every `<script>` element (with its whole subtree) from a
node, modelling `script.extract()` applied to all of them. -/
def removeScripts : Node → Node
  | .text s => .text s
  | .elem nm a cs => .elem nm a (removeScriptsList cs)

/-- `removeScripts` over a list of sibling nodes. -/
def removeScriptsList : List Node → List Node
  | [] => []
  | c :: cs =>
    if isScript c then removeScriptsList cs
    else removeScripts c :: removeScriptsList cs
end

/-- One attribute rewrite of the `doc.find_all()` loop: `src`, `href` and
`action` values go through `map_url`, all other attributes are kept. -/
def rewriteAttr (page : List Char) (kv : String × String) : String × String :=
  if kv.1 = "src" ∨ kv.1 = "href" ∨ kv.1 = "action" then
    (kv.1, (map_url kv.2.data page).asString)
  else kv

mutual
/-- The `for tag in doc.find_all()` loop: rewrite the `src`/`href`/`action`
attributes of every element in the tree through `map_url`. -/
def rewriteAttrs (page : List Char) : Node → Node
  | .text s => .text s
  | .elem nm a cs => .elem nm (a.map (rewriteAttr page)) (rewriteAttrsList page cs)

/-- `rewriteAttrs` over a list of sibling nodes. -/
def rewriteAttrsList (page : List Char) : List Node → List Node
  | [] => []
  | c :: cs => rewriteAttrs page c :: rewriteAttrsList page cs
end

mutual
/-- Application of `f` to the children of the first element (in document
preorder) whose `id` attribute is `"wiki"` — the `doc.select('#wiki')[0]`
target.  `none` when no such element exists (Python's `IndexError`). -/
def updateWiki (f : List Node → List Node) : Node → Option Node
  | .text _ => none
  | .elem nm a cs =>
    if a.lookup "id" = some "wiki" then some (.elem nm a (f cs))
    else
      match updateWikiList f cs with
      | some cs2 => some (.elem nm a cs2)
      | none => none

/-- `updateWiki` over a list of sibling nodes: rewrites the first match. -/
def updateWikiList (f : List Node → List Node) : List Node → Option (List Node)
  | [] => none
  | c :: cs =>
    match updateWiki f c with
    | some c2 => some (c2 :: cs)
    | none =>
      match updateWikiList f cs with
      | some cs2 => some (c :: cs2)
      | none => none
end

/-- Serialization of one attribute, as in `str(doc)`. -/
def serializeAttr (kv : String × String) : List Char :=
  ' ' :: kv.1.data ++ '=' :: '"' :: kv.2.data ++ ['"']

mutual
/-- A model of BeautifulSoup's `str(doc)` for one node: text as-is, an
element as an open tag with attributes, the serialized children, and a
close tag. -/
def serialize : Node → List Char
  | .text s => s.data
  | .elem nm a cs =>
    '<' :: nm.data ++ (a.map serializeAttr).flatten ++ '>' ::
      serializeList cs ++ '<' :: '/' :: nm.data ++ ['>']

/-- `serialize` over a list of sibling nodes. -/
def serializeList : List Node → List Char
  | [] => []
  | c :: cs => serialize c ++ serializeList cs
end

/-- Embedding of `normalize_file`.  The two decode attempts (UTF-8 then
cp1252) are passed in as `Option` values, `none` meaning a
`UnicodeDecodeError`; the parsed document is its list of top-level nodes.
The result is `.ok none` when the early `return` fires (no output file),
`.error` when `doc.select('#wiki')[0]` raises, and `.ok (some (dest,
content))` for the write of `make_printable(str(doc))` to the destination
filename. -/
def normalize_file (decodedUtf8 decodedCp1252 : Option (List Node))
    (filename : List Char) : Except String (Option (List Char × List Char)) :=
  match firstSuccess [decodedUtf8, decodedCp1252] with
  | none => .ok none
  | some doc =>
    let doc1 := removeScriptsList doc
    let doc2 := rewriteAttrsList (pageName filename) doc1
    match updateWikiList regroup doc2 with
    | none => .error "IndexError: list index out of range"
    | some doc3 => .ok (some (destFilename filename, make_printable (serializeList doc3)))

/-- Embedding of `worker`: process each file of the work list in order,
each through `normalize_file` with its own decode results. -/
def worker (decodes : List Char → Option (List Node) × Option (List Node)) :
    List (List Char) → List (Except String (Option (List Char × List Char)))
  | [] => []
  | f :: fs => normalize_file (decodes f).1 (decodes f).2 f :: worker decodes fs

/-- Bounded check that `pat` occurs nowhere in `s` as a contiguous
substring. -/
def noOccur (pat s : List Char) : Bool :=
  (List.range (s.length + 1)).all (fun i => !(pat.isPrefixOf (s.drop i)))

/-- Bounded check that no occurrence of `pat` in `a ++ pat ++ b` starts
before position `a.length` (so the explicit middle `pat` is the first
occurrence). -/
def noOccurBefore (pat a b : List Char) : Bool :=
  (List.range a.length).all (fun i => !(pat.isPrefixOf ((a ++ pat ++ b).drop i)))

/-! ## Helper lemmas -/

theorem make_printable_eq_filter (s : List Char) : make_printable s = s.filter implKeep := by
  induction s with
  | nil => rfl
  | cons c rest ih =>
    by_cases h1 : c = '\r' ∨ c = '\n'
    · have hk : implKeep c = true := by
        simp only [implKeep, decide_eq_true_eq]
        exact Or.inl h1
      rw [List.filter_cons, if_pos hk]
      simp only [make_printable, if_pos h1]
      rw [ih]
    · by_cases h2 : c.toNat ≠ 0x7F ∧ c.toNat ≥ 0x20
      · have hk : implKeep c = true := by
          simp only [implKeep, decide_eq_true_eq]
          exact Or.inr h2
        rw [List.filter_cons, if_pos hk]
        simp only [make_printable, if_neg h1, if_pos h2]
        rw [ih]
      · have hk : ¬ implKeep c = true := by
          simp only [implKeep, decide_eq_true_eq]
          rintro (h | h)
          exacts [h1 h, h2 h]
        rw [List.filter_cons, if_neg hk]
        simp only [make_printable, if_neg h1, if_neg h2]
        exact ih

theorem implKeep_eq_specKeep (c : Char) : implKeep c = specKeep c := by
  unfold implKeep specKeep
  apply decide_eq_decide.mpr
  by_cases h1 : c = '\r'
  · subst h1; decide
  · by_cases h2 : c = '\n'
    · subst h2; decide
    · simp only [h1, h2, or_self, false_or, ne_eq, not_false_eq_true, and_true, true_and]
      omega

theorem append_eq_take (pre t X : List Char) (h : pre ++ t = X) :
    pre = X.take pre.length := by
  rw [← h, List.take_left]

theorem isPrefixOf_append_take (pat pre t : List Char)
    (h : pat.isPrefixOf (pre ++ t) = true) (hle : pat.length ≤ pre.length) :
    pat = pre.take pat.length := by
  obtain ⟨u, hu⟩ := List.isPrefixOf_iff_prefix.mp h
  have h2 := congrArg (List.take pat.length) hu
  rw [List.take_left, List.take_append_eq_append_take, Nat.sub_eq_zero_of_le hle,
      List.take_zero, List.append_nil] at h2
  exact h2

/-! ## Claim theorems -/

/-- C5: `make_printable` returns the subsequence of its input obtained by
removing exactly the characters whose code point is below 0x20 — except
carriage return and line feed, which are kept — or equal to 0x7F, keeping
all other characters in order. -/
theorem c5_make_printable_filters_unprintable (s : List Char) :
    make_printable s = s.filter specKeep := by
  rw [make_printable_eq_filter]
  exact List.filter_congr fun c _ => implKeep_eq_specKeep c

/-- C6: the printable-character filter is idempotent: applying
`make_printable` twice gives the same result as applying it once. -/
theorem c6_make_printable_idempotent (s : List Char) :
    make_printable (make_printable s) = make_printable s := by
  rw [make_printable_eq_filter (make_printable s), make_printable_eq_filter s,
      List.filter_filter]
  exact List.filter_congr fun c _ => by rw [Bool.and_self]

/-- C4: on the exact full-text-search URL, `map_url` returns
`../fullSearch?search=` followed by the URL-escaped page name; in
particular the page name `CurrentPage` passes through unescaped and a page
name with a space gets the space escaped as `%20`. -/
theorem c4_map_url_fullSearch :
    (∀ page, map_url fullSearchURL page = "../fullSearch?search=".data ++ quote page) ∧
    map_url fullSearchURL "CurrentPage".data = "../fullSearch?search=CurrentPage".data ∧
    map_url fullSearchURL "a b".data = "../fullSearch?search=a%20b".data := by
  refine ⟨fun page => ?_, by decide, by decide⟩
  unfold map_url
  rw [if_pos rfl]

/-- C3: for every URL that starts with the edit CGI prefix
`http://c2.com/cgi/wiki?edit=` and every page name, `map_url` returns the
remainder of the URL after its first 28 characters (the edit rule fires
before the later generic `http://c2.com/cgi/wiki?` rule). -/
theorem c3_map_url_edit (url page : List Char) (h : editPre.isPrefixOf url = true) :
    map_url url page = url.drop 28 := by
  obtain ⟨t, ht⟩ := List.isPrefixOf_iff_prefix.mp h
  subst ht
  have hn1 : ¬ (editPre ++ t = fullSearchURL) := fun hEq =>
    absurd (append_eq_take _ _ _ hEq) (by decide)
  have hn2 : ¬ (editPre ++ t = logoGifURL ∨ editPre ++ t = logoPngURL) := by
    rintro (hEq | hEq)
    · exact absurd (append_eq_take _ _ _ hEq) (by decide)
    · exact absurd (append_eq_take _ _ _ hEq) (by decide)
  have hn3 : ¬ (editPre ++ t = wikiCgiURL) := fun hEq =>
    absurd (append_eq_take _ _ _ hEq) (by decide)
  have hn4 : ¬ (wikiPercentPre.isPrefixOf (editPre ++ t) = true) := fun hp =>
    absurd (isPrefixOf_append_take _ _ _ hp (by decide)) (by decide)
  unfold map_url
  rw [if_neg hn1, if_neg hn2, if_neg hn3, if_neg hn4, if_pos h]

/-- Witness for C3 at the spec's example: the edit URL for `SomePage` with
current page `CurrentPage` maps to `SomePage`. -/
theorem c3_map_url_edit_witness :
    editPre.isPrefixOf "http://c2.com/cgi/wiki?edit=SomePage".data = true ∧
    map_url "http://c2.com/cgi/wiki?edit=SomePage".data "CurrentPage".data
      = "http://c2.com/cgi/wiki?edit=SomePage".data.drop 28 ∧
    "http://c2.com/cgi/wiki?edit=SomePage".data.drop 28 = "SomePage".data :=
  ⟨by decide, c3_map_url_edit _ _ (by decide), by decide⟩

/-- C9: `map_url` is independent of the page argument on every URL other
than the exact full-text-search URL: any two page names give the same
result. -/
theorem c9_map_url_page_independent (u p1 p2 : List Char) (h : u ≠ fullSearchURL) :
    map_url u p1 = map_url u p2 := by
  unfold map_url
  rw [if_neg h, if_neg h]

/-- Witness for C9 at a concrete non-search URL and two page names. -/
theorem c9_map_url_page_independent_witness :
    "http://example.com/unrelated".data ≠ fullSearchURL ∧
    map_url "http://example.com/unrelated".data "a".data
      = map_url "http://example.com/unrelated".data "b".data :=
  ⟨by decide, c9_map_url_page_independent _ _ _ (by decide)⟩

theorem regroupAux_all_p_or_hr (ns : List Node) :
    ∀ acc, ((regroupAux acc ns).all fun n => isP n || isHr n) = true := by
  induction ns with
  | nil =>
    intro acc
    by_cases h : acc.isEmpty
    · simp [regroupAux, h]
    · simp [regroupAux, h, isP]
  | cons child rest ih =>
    intro acc
    cases child with
    | text s => simpa only [regroupAux] using ih (acc ++ [Node.text s])
    | elem nm a cs =>
      by_cases hp : nm = "p"
      · subst hp
        by_cases he : acc.isEmpty
        · simpa [regroupAux, he] using ih acc
        · simpa [regroupAux, he, isP] using ih []
      · by_cases hh : nm = "hr"
        · subst hh
          by_cases he : acc.isEmpty
          · simpa [regroupAux, he, isHr] using ih []
          · simpa [regroupAux, he, isP, isHr] using ih []
        · simpa only [regroupAux, if_neg hp, if_neg hh] using ih (acc ++ [Node.elem nm a cs])

theorem regroupAux_filter_isHr (ns : List Node) :
    ∀ acc, (regroupAux acc ns).filter isHr = ns.filter isHr := by
  induction ns with
  | nil =>
    intro acc
    by_cases h : acc.isEmpty
    · simp [regroupAux, h]
    · simp [regroupAux, h, isHr]
  | cons child rest ih =>
    intro acc
    cases child with
    | text s => simpa [regroupAux, isHr] using ih (acc ++ [Node.text s])
    | elem nm a cs =>
      by_cases hp : nm = "p"
      · subst hp
        by_cases he : acc.isEmpty
        · simpa [regroupAux, he, isHr] using ih acc
        · simpa [regroupAux, he, isHr] using ih []
      · by_cases hh : nm = "hr"
        · subst hh
          by_cases he : acc.isEmpty
          · simpa [regroupAux, he, isHr] using ih []
          · simpa [regroupAux, he, isHr] using ih []
        · simpa [regroupAux, hp, hh, isHr] using ih (acc ++ [Node.elem nm a cs])

theorem regroupFlushed_flatten (ns : List Node) :
    ∀ acc, (regroupFlushed acc ns).flatten = acc ++ ns.filter isLoose := by
  induction ns with
  | nil =>
    intro acc
    by_cases h : acc.isEmpty
    · simp [regroupFlushed, h, List.isEmpty_iff.mp h]
    · simp [regroupFlushed, h]
  | cons child rest ih =>
    intro acc
    cases child with
    | text s =>
      have hrec := ih (acc ++ [Node.text s])
      simp [regroupFlushed, isLoose, isP, isHr, hrec]
    | elem nm a cs =>
      by_cases hp : nm = "p"
      · subst hp
        by_cases he : acc.isEmpty
        · simpa [regroupFlushed, he, isLoose, isP, isHr] using ih acc
        · have hrec := ih ([] : List Node)
          simp [regroupFlushed, he, isLoose, isP, isHr, hrec]
      · by_cases hh : nm = "hr"
        · subst hh
          by_cases he : acc.isEmpty
          · have hae : acc = [] := List.isEmpty_iff.mp he
            subst hae
            have hrec := ih ([] : List Node)
            simp [regroupFlushed, isLoose, isP, isHr, hrec]
          · have hrec := ih ([] : List Node)
            simp [regroupFlushed, he, isLoose, isP, isHr, hrec]
        · have hrec := ih (acc ++ [Node.elem nm a cs])
          simp [regroupFlushed, hp, hh, isLoose, isP, isHr, hrec]

theorem regroupAux_forall2 (ns : List Node) :
    ∀ acc, List.Forall₂ (fun p g => ∃ pre, nodeChildren p = pre ++ g)
      ((regroupAux acc ns).filter isP) (regroupFlushed acc ns) := by
  induction ns with
  | nil =>
    intro acc
    by_cases h : acc.isEmpty
    · simp [regroupAux, regroupFlushed, h]
    · simp only [regroupAux, regroupFlushed, if_neg h]
      simp [isP, nodeChildren]
  | cons child rest ih =>
    intro acc
    cases child with
    | text s => simpa only [regroupAux, regroupFlushed] using ih (acc ++ [Node.text s])
    | elem nm a cs =>
      by_cases hp : nm = "p"
      · subst hp
        by_cases he : acc.isEmpty
        · simpa only [regroupAux, regroupFlushed, if_pos he] using ih acc
        · simp only [regroupAux, regroupFlushed, if_neg he]
          simp [isP, nodeChildren]
          exact ih []
      · by_cases hh : nm = "hr"
        · subst hh
          by_cases he : acc.isEmpty
          · simp only [regroupAux, regroupFlushed, if_pos he]
            simpa [isP] using ih []
          · simp only [regroupAux, regroupFlushed, if_neg he]
            simp [isP, nodeChildren]
            exact ih []
        · simpa only [regroupAux, regroupFlushed, if_neg hp, if_neg hh]
            using ih (acc ++ [Node.elem nm a cs])

/-- C10: after paragraph regrouping, every direct child of the article
container is either a `<p>` element or an `<hr>` element — no bare text
node and no other element kind remains at the top level. -/
theorem c10_regroup_only_p_or_hr (children : List Node) :
    ((regroup children).all fun n => isP n || isHr n) = true :=
  regroupAux_all_p_or_hr children []

/-- C1 (amended): paragraph regrouping conserves non-separator content,
where the separator markers actually recognised by the code are all `<p>`
elements (empty or not) and `<hr>` elements: the `<hr>` nodes of the input
reappear 1:1 as top-level siblings in order; the flushed groups partition
exactly the loose input nodes (text nodes and non-`<p>`/non-`<hr>`
elements) in original relative order; and the output paragraphs correspond
1:1 and in order to those groups, each paragraph's children ending in its
group (preceded only by the reused `<p>` marker's own former children). -/
theorem c1_regroup_conserves_loose_content (children : List Node) :
    (regroup children).filter isHr = children.filter isHr ∧
    (regroupFlushed [] children).flatten = children.filter isLoose ∧
    List.Forall₂ (fun p g => ∃ pre, nodeChildren p = pre ++ g)
      ((regroup children).filter isP) (regroupFlushed [] children) :=
  ⟨regroupAux_filter_isHr children [],
   by simpa using regroupFlushed_flatten children [],
   regroupAux_forall2 children []⟩

/-- Counterexample to C1 as stated: a non-empty `<p>` element is neither an
empty `<p>` nor an `<hr>`, so by the claim it is non-separator content that
must appear in exactly one output paragraph; but when it is the article's
only child (so no content has accumulated before it), the code drops it
entirely — the output is empty and its text child is lost. -/
theorem c1_counterexample :
    isEmptyP (Node.elem "p" [] [Node.text "x"]) = false ∧
    isHr (Node.elem "p" [] [Node.text "x"]) = false ∧
    regroup [Node.elem "p" [] [Node.text "x"]] = [] :=
  ⟨rfl, rfl, rfl⟩

/-- Counterexample to C2 as stated: on the input
`[text "a", <p></p>, text "b", <hr>, text "c"]` the code does not produce
`[<p>a</p>, <hr>, <p>c</p>]` (the output has four nodes, not three: "b" is
flushed into its own paragraph before the `<hr>`). -/
theorem c2_counterexample :
    regroup [Node.text "a", Node.elem "p" [] [], Node.text "b",
             Node.elem "hr" [] [], Node.text "c"]
      ≠ [Node.elem "p" [] [Node.text "a"], Node.elem "hr" [] [],
         Node.elem "p" [] [Node.text "c"]] :=
  fun h => absurd (congrArg List.length h) (by decide)

/-- C2 (amended): on the input child sequence
`[text "a", <p></p>, text "b", <hr>, text "c"]` the paragraph-regrouping
pass produces exactly `[<p>a</p>, <p>b</p>, <hr>, <p>c</p>]`: the text "b"
accumulated before the `<hr>` is flushed into its own synthesized
paragraph, which precedes the `<hr>`. -/
theorem c2_amended_literal_sequence :
    regroup [Node.text "a", Node.elem "p" [] [], Node.text "b",
             Node.elem "hr" [] [], Node.text "c"]
      = [Node.elem "p" [] [Node.text "a"], Node.elem "p" [] [Node.text "b"],
         Node.elem "hr" [] [], Node.elem "p" [] [Node.text "c"]] := rfl

theorem strReplaceGo_fuel (pat : List Char) (hne : pat ≠ []) :
    ∀ f1 f2 : Nat, ∀ s : List Char, s.length ≤ f1 → s.length ≤ f2 →
      strReplaceGo pat f1 s = strReplaceGo pat f2 s := by
  intro f1
  induction f1 with
  | zero =>
    intro f2 s h1 h2
    have hs : s = [] := List.length_eq_zero.mp (Nat.le_zero.mp h1)
    subst hs
    cases f2 <;> rfl
  | succ n ih =>
    intro f2 s h1 h2
    cases s with
    | nil => cases f2 <;> rfl
    | cons c rest =>
      cases f2 with
      | zero => simp at h2
      | succ m =>
        have hplen : 1 ≤ pat.length := List.length_pos.mpr hne
        simp only [List.length_cons] at h1 h2
        by_cases hpre : pat.isPrefixOf (c :: rest) = true
        · simp only [strReplaceGo]
          rw [if_pos hpre, if_pos hpre]
          apply ih
          · simp only [List.length_drop, List.length_cons]
            omega
          · simp only [List.length_drop, List.length_cons]
            omega
        · simp only [strReplaceGo]
          rw [if_neg hpre, if_neg hpre]
          rw [ih m rest (by omega) (by omega)]

theorem strReplace_of_no_occurrence (pat : List Char) :
    ∀ s : List Char, (∀ i, pat.isPrefixOf (s.drop i) = false) → strReplace pat s = s := by
  intro s
  induction s with
  | nil => intro h; rfl
  | cons c rest ih =>
    intro h
    have h0 := h 0
    rw [List.drop_zero] at h0
    show strReplaceGo pat (rest.length + 1) (c :: rest) = c :: rest
    simp only [strReplaceGo]
    rw [if_neg (by rw [h0]; exact Bool.false_ne_true)]
    exact congrArg (c :: ·) (ih fun i => by simpa [List.drop_succ_cons] using h (i + 1))

theorem strReplace_append_occurrence (pat : List Char) (hne : pat ≠ []) :
    ∀ a b : List Char,
      (∀ i, i < a.length → pat.isPrefixOf ((a ++ pat ++ b).drop i) = false) →
      strReplace pat (a ++ pat ++ b) = a ++ strReplace pat b := by
  intro a
  induction a with
  | nil =>
    intro b h
    have hpre : pat.isPrefixOf (pat ++ b) = true :=
      List.isPrefixOf_iff_prefix.mpr (List.prefix_append pat b)
    cases pat with
    | nil => exact absurd rfl hne
    | cons p0 prest =>
      simp only [List.nil_append]
      show strReplaceGo (p0 :: prest) ((prest ++ b).length + 1) (p0 :: (prest ++ b))
        = strReplaceGo (p0 :: prest) b.length b
      simp only [strReplaceGo]
      rw [if_pos (by simpa only [List.cons_append] using hpre)]
      have hdrop : List.drop (p0 :: prest).length (p0 :: (prest ++ b)) = b := by
        simpa only [List.cons_append] using List.drop_left (p0 :: prest) b
      rw [hdrop]
      exact strReplaceGo_fuel (p0 :: prest) hne _ _ b
        (by simp only [List.length_append]; omega) (Nat.le_refl _)
  | cons c a2 ih =>
    intro b h
    have h0 := h 0 (by simp)
    rw [List.drop_zero] at h0
    show strReplaceGo pat ((a2 ++ pat ++ b).length + 1) (c :: (a2 ++ pat ++ b))
      = c :: (a2 ++ strReplace pat b)
    simp only [strReplaceGo]
    rw [if_neg (by rw [show pat.isPrefixOf (c :: (a2 ++ pat ++ b)) = false by
          simpa only [List.cons_append] using h0]; exact Bool.false_ne_true)]
    refine congrArg (c :: ·) ?_
    exact ih b fun i hi => by
      have := h (i + 1) (by simp only [List.length_cons]; omega)
      simpa only [List.cons_append, List.drop_succ_cons] using this

theorem noOccur_spec (pat s : List Char) (hne : pat ≠ []) (h : noOccur pat s = true) :
    ∀ i, pat.isPrefixOf (s.drop i) = false := by
  intro i
  by_cases hi : i < s.length + 1
  · have hx := List.all_eq_true.mp h i (List.mem_range.mpr hi)
    simpa using hx
  · have hdrop : s.drop i = [] := List.drop_eq_nil_of_le (by omega)
    rw [hdrop]
    cases pat with
    | nil => exact absurd rfl hne
    | cons p0 prest => rfl

theorem noOccurBefore_spec (pat a b : List Char) (h : noOccurBefore pat a b = true) :
    ∀ i, i < a.length → pat.isPrefixOf ((a ++ pat ++ b).drop i) = false := by
  intro i hi
  have hx := List.all_eq_true.mp h i (List.mem_range.mpr hi)
  simpa using hx

theorem basename_go (f : List Char) (h : ∀ c ∈ f, c ≠ '/') :
    ∀ acc, f.foldl (fun acc c => if c = '/' then [] else acc ++ [c]) acc = acc ++ f := by
  induction f with
  | nil => intro acc; simp
  | cons c rest ih =>
    intro acc
    have hc : c ≠ '/' := h c (by simp)
    simp only [List.foldl_cons, if_neg hc]
    rw [ih (fun x hx => h x (by simp [hx])) (acc ++ [c])]
    simp

theorem basename_of_no_slash (f : List Char) (h : ∀ c ∈ f, c ≠ '/') : basename f = f := by
  simpa [basename] using basename_go f h []

/-- C8 (amended): for every input filename of the form `wiki?<stem>.html`
where the stem has no `/`, no occurrence of `wiki?` remains after the
marker, and the final `.html` is the first occurrence of `.html`, the
destination filename is the input with the marker substring removed and
the page name is the stem.  (The code removes EVERY occurrence of `wiki?`
and of `.html`, not only the one marker and a trailing suffix; on such
canonical filenames the two descriptions agree.) -/
theorem c8_amended_filename_mapping (stem : List Char)
    (h0 : ∀ c ∈ stem, c ≠ '/')
    (h1 : noOccur "wiki?".data (stem ++ ".html".data) = true)
    (h2 : noOccurBefore ".html".data stem [] = true) :
    destFilename ("wiki?".data ++ stem ++ ".html".data) = stem ++ ".html".data ∧
    pageName ("wiki?".data ++ stem ++ ".html".data) = stem := by
  have hw : ("wiki?".data : List Char) ≠ [] := by decide
  have hrepl1 : strReplace "wiki?".data ("wiki?".data ++ stem ++ ".html".data)
      = stem ++ ".html".data := by
    have happ := strReplace_append_occurrence "wiki?".data hw [] (stem ++ ".html".data)
      (fun i hi => absurd hi (by simp))
    simp only [List.nil_append] at happ
    rw [List.append_assoc, happ]
    exact strReplace_of_no_occurrence "wiki?".data _ (noOccur_spec _ _ hw h1)
  constructor
  · exact hrepl1
  · have hns : ∀ c ∈ ("wiki?".data ++ stem ++ ".html".data), c ≠ '/' := by
      intro c hc
      rcases List.mem_append.mp hc with hc1 | hc2
      · rcases List.mem_append.mp hc1 with hc3 | hc4
        · exact (by decide : ∀ x ∈ "wiki?".data, x ≠ '/') c hc3
        · exact h0 c hc4
      · exact (by decide : ∀ x ∈ ".html".data, x ≠ '/') c hc2
    show strReplace ".html".data
        (strReplace "wiki?".data (basename ("wiki?".data ++ stem ++ ".html".data))) = stem
    rw [basename_of_no_slash _ hns, hrepl1]
    have hh : (".html".data : List Char) ≠ [] := by decide
    have happ2 := strReplace_append_occurrence ".html".data hh stem []
      (noOccurBefore_spec ".html".data stem [] h2)
    simp only [List.append_nil] at happ2
    rw [happ2]
    simp [strReplace, strReplaceGo]

/-- Witness for C8 (amended) at the spec's example filename
`wiki?SomePage.html`: destination `SomePage.html`, page name `SomePage`. -/
theorem c8_amended_filename_mapping_witness :
    (∀ c ∈ "SomePage".data, c ≠ '/') ∧
    noOccur "wiki?".data ("SomePage".data ++ ".html".data) = true ∧
    noOccurBefore ".html".data "SomePage".data [] = true ∧
    destFilename ("wiki?".data ++ "SomePage".data ++ ".html".data)
      = "SomePage".data ++ ".html".data ∧
    pageName ("wiki?".data ++ "SomePage".data ++ ".html".data) = "SomePage".data := by
  have h := c8_amended_filename_mapping "SomePage".data (by decide) (by decide) (by decide)
  exact ⟨by decide, by decide, by decide, h.1, h.2⟩

/-- Counterexample to C8 as stated: on the filename `wiki?a.htmlb.html`,
the claim's description (marker removed, only a trailing `.html` suffix
removed) would give page name `a.htmlb`, but the code removes every
occurrence of `.html` and produces `ab`. -/
theorem c8_counterexample :
    destFilename "wiki?a.htmlb.html".data = "a.htmlb.html".data ∧
    pageName "wiki?a.htmlb.html".data = "ab".data ∧
    "ab".data ≠ "a.htmlb".data :=
  ⟨by decide, by decide, by decide⟩

/-- C7: for a file whose bytes fail to decode under both candidate
encodings (UTF-8 first, then cp1252), `normalize_file` returns without
producing any output and without surfacing an error (`.ok none`: no
destination file, no exception), and the worker goes on to process the
remaining files of its work list exactly as before. -/
theorem c7_decode_failure_skips_file
    (dec : List Char → Option (List Node) × Option (List Node))
    (f : List Char) (fs : List (List Char)) (h : dec f = (none, none)) :
    normalize_file (dec f).1 (dec f).2 f = Except.ok none ∧
    worker dec (f :: fs) = Except.ok none :: worker dec fs := by
  constructor
  · rw [h]
    rfl
  · simp only [worker, h]
    rfl

/-- Witness for C7: a one-file work list whose decode attempts both fail
yields a skipped file and an untouched remaining list. -/
theorem c7_decode_failure_skips_file_witness :
    normalize_file none none "x".data = Except.ok none ∧
    worker (fun _ => ((none : Option (List Node)), (none : Option (List Node)))) ["x".data]
      = Except.ok none :: worker (fun _ => (none, none)) [] :=
  c7_decode_failure_skips_file (fun _ => (none, none)) "x".data [] rfl
